import Mathlib

/-!
Verification of the utility core of the `allms` crate (`src/utils.rs`):
`map_to_range`, `get_tokenizer`, `remove_json_wrapper`, `get_type_schema`
and `fix_value_schema`, embedded shallowly in Lean.

`f32` arithmetic is modelled by exact rational arithmetic; all concrete
values appearing in the development are exactly representable in `f32`
and the modelled computations involve no rounding at those points.
-/

set_option autoImplicit false

namespace Allms

/-- `map_to_range` from src/utils.rs: caps `target` at 100 and linearly
interpolates between `min` and `max`.  The `u32` inputs are modelled as `Nat`
and the `f32` computation as exact rational arithmetic. -/
def map_to_range (min max target : Nat) : ℚ :=
  let capped_target := Nat.min target 100
  let range : ℚ := (max : ℚ) - (min : ℚ)
  let percentage : ℚ := (capped_target : ℚ) / 100
  (min : ℚ) + (range * percentage)

/-- `get_tokenizer` from src/utils.rs.  The external tiktoken-rs functions
`get_bpe_from_model` and `cl100k_base` are abstracted as parameters; the
embedded code is exactly the fallback logic of the source. -/
def get_tokenizer {ε α : Type} (get_bpe_from_model : String → Except ε α)
    (cl100k_base : Except ε α) (model : String) : Except ε α :=
  let tokenizer := get_bpe_from_model model
  match tokenizer with
  | .error _ => cl100k_base
  | .ok t => .ok t

/-- C2: `get_tokenizer` never fails merely because the model identifier is
unrecognized: when the per-model lookup errors it returns the `cl100k_base`
fallback's result, and it returns an error only when that fallback itself
is an error. -/
theorem get_tokenizer_fallback {ε α : Type} (g : String → Except ε α)
    (cl : Except ε α) (m : String) :
    ((∃ e, g m = .error e) → get_tokenizer g cl m = cl) ∧
    (∀ e, get_tokenizer g cl m = .error e → cl = .error e) := by
  constructor
  · rintro ⟨e, he⟩
    simp [get_tokenizer, he]
  · intro e h
    cases hg : g m with
    | error e2 =>
      simp [get_tokenizer, hg] at h
      simp [h]
    | ok a =>
      simp [get_tokenizer, hg] at h

/-- Witness for C2 at a concrete unrecognized model. -/
theorem get_tokenizer_fallback_witness :
    get_tokenizer (fun _ => (Except.error () : Except Unit Nat))
      (Except.ok 7) "some-unknown-model" = Except.ok 7 :=
  (get_tokenizer_fallback (fun _ => Except.error ()) (Except.ok 7)
    "some-unknown-model").1 ⟨(), rfl⟩

/-- C4: `map_to_range` clamps `target` to at most 100 (values of 100 or
below pass through unchanged into the interpolation formula), equals the
formula `min + (max - min) * (target / 100)` there, takes the claimed
values at the claimed points, and above 100 agrees with the value at 100. -/
theorem map_to_range_spec :
    map_to_range 0 100 3000 = 100 ∧ map_to_range 10 20 200 = 20 ∧
    map_to_range 0 100 50 = 50 ∧ map_to_range 10 20 50 = 15 ∧
    map_to_range 0 1 50 = 1/2 ∧
    (∀ mn mx t : Nat, 100 ≤ t → map_to_range mn mx t = map_to_range mn mx 100) ∧
    (∀ mn mx t : Nat, t ≤ 100 →
      map_to_range mn mx t = (mn : ℚ) + ((mx : ℚ) - (mn : ℚ)) * ((t : ℚ) / 100)) := by
  refine ⟨by norm_num [map_to_range], by norm_num [map_to_range],
    by norm_num [map_to_range], by norm_num [map_to_range],
    by norm_num [map_to_range], ?_, ?_⟩
  · intro mn mx t ht
    simp [map_to_range, Nat.min_eq_right ht]
  · intro mn mx t ht
    simp [map_to_range, Nat.min_eq_left ht]

/-- Witness for C4: the over-100 clause applied at target 200. -/
theorem map_to_range_spec_witness :
    map_to_range 0 50 200 = map_to_range 0 50 100 :=
  map_to_range_spec.2.2.2.2.2.1 0 50 200 (by norm_num)

/-- C5: in the degenerate case `min == max`, `map_to_range` returns `min`
exactly, for every target. -/
theorem map_to_range_degenerate (mn t : Nat) : map_to_range mn mn t = (mn : ℚ) := by
  simp [map_to_range]

/-- C6: `map_to_range` is monotone in `target` for fixed `min < max`. -/
theorem map_to_range_mono (mn mx t1 t2 : Nat) (hlt : mn < mx) (ht : t1 ≤ t2) :
    map_to_range mn mx t1 ≤ map_to_range mn mx t2 := by
  have hr : (0 : ℚ) ≤ (mx : ℚ) - (mn : ℚ) := by
    have : (mn : ℚ) ≤ (mx : ℚ) := by exact_mod_cast Nat.le_of_lt hlt
    linarith
  have hm : ((Nat.min t1 100 : Nat) : ℚ) ≤ ((Nat.min t2 100 : Nat) : ℚ) := by
    exact_mod_cast min_le_min ht (le_refl 100)
  simp only [map_to_range]
  gcongr

/-- Witness for C6 at concrete inputs. -/
theorem map_to_range_mono_witness :
    map_to_range 0 100 10 ≤ map_to_range 0 100 20 :=
  map_to_range_mono 0 100 10 20 (by norm_num) (by norm_num)

/-- C9 (amended): whenever `min ≤ max`, the exact-arithmetic value of the
clamped interpolation formula — `map_to_range` in the rounding-free
rational model — lies in the closed interval `[min, max]`.  The
f32-computed result rounds at every operation and can exceed `(f32)max`
(see the rounding model below), so containment holds for the exact value
of the formula, not for the computed result. -/
theorem map_to_range_bounds (mn mx t : Nat) (hle : mn ≤ mx) :
    (mn : ℚ) ≤ map_to_range mn mx t ∧ map_to_range mn mx t ≤ (mx : ℚ) := by
  have hr : (0 : ℚ) ≤ (mx : ℚ) - (mn : ℚ) := by
    have : (mn : ℚ) ≤ (mx : ℚ) := by exact_mod_cast hle
    linarith
  have hp0 : (0 : ℚ) ≤ ((Nat.min t 100 : Nat) : ℚ) / 100 := by positivity
  have hp1 : ((Nat.min t 100 : Nat) : ℚ) / 100 ≤ 1 := by
    have h100 : ((Nat.min t 100 : Nat) : ℚ) ≤ 100 := by
      exact_mod_cast Nat.min_le_right t 100
    linarith
  constructor
  · simp only [map_to_range]
    nlinarith
  · simp only [map_to_range]
    nlinarith

/-- Witness for C9 at concrete inputs. -/
theorem map_to_range_bounds_witness :
    (10 : ℚ) ≤ map_to_range 10 20 55 ∧ map_to_range 10 20 55 ≤ (20 : ℚ) :=
  map_to_range_bounds 10 20 55 (by norm_num)

/-- Number of binary digits of `n` (`0` for `n = 0`), fuel-based so the
kernel can evaluate it. -/
def bitLenAux : Nat → Nat → Nat
  | 0, _ => 0
  | fuel + 1, n => if n = 0 then 0 else bitLenAux fuel (n / 2) + 1

def bitLen (n : Nat) : Nat :=
  bitLenAux n n

/-- An IEEE-754 binary32 value `mant * 2^exp`, with `|mant|` normalized
into `[2^23, 2^24)` (and `mant = 0` for zero).  Exponent overflow,
subnormals, infinities and NaN are not modelled: every quantity reachable
from the `u32` inputs of `map_to_range` stays far inside the normal
range. -/
structure F32 where
  mant : ℤ
  exp : ℤ
  deriving DecidableEq

def sgnOf (m : ℤ) : ℤ :=
  if m < 0 then -1 else 1

/-- Round the dyadic value `m * 2^e` to the nearest binary32
(round-to-nearest, ties to even). -/
def roundDyadic (m e : ℤ) : F32 :=
  if m = 0 then ⟨0, 0⟩
  else
    let v := m.natAbs
    let b := bitLen v
    if b ≤ 24 then
      let k := 24 - b
      ⟨m * (2 : ℤ) ^ k, e - (k : ℤ)⟩
    else
      let s := b - 24
      let q := v / 2 ^ s
      let r := v % 2 ^ s
      let half := 2 ^ (s - 1)
      let q2 := if r < half then q else if half < r then q + 1
        else if q % 2 = 0 then q else q + 1
      if q2 = 2 ^ 24 then ⟨sgnOf m * 2 ^ 23, e + (s : ℤ) + 1⟩
      else ⟨sgnOf m * (q2 : ℤ), e + (s : ℤ)⟩

/-- `u32 as f32`: exact for values below `2^24`, rounded to nearest
above. -/
def f32ofNat (n : Nat) : F32 :=
  roundDyadic (n : ℤ) 0

def f32neg (x : F32) : F32 :=
  ⟨-x.mant, x.exp⟩

/-- f32 addition: align to the smaller exponent, add exactly, round. -/
def f32add (a b : F32) : F32 :=
  let e := min a.exp b.exp
  roundDyadic (a.mant * 2 ^ (a.exp - e).toNat + b.mant * 2 ^ (b.exp - e).toNat) e

def f32sub (a b : F32) : F32 :=
  f32add a (f32neg b)

/-- f32 multiplication: exact product of mantissas, then one rounding. -/
def f32mul (a b : F32) : F32 :=
  roundDyadic (a.mant * b.mant) (a.exp + b.exp)

/-- f32 division (divisor nonzero; division by zero is not modelled):
the quotient of mantissas scaled into `[2^23, 2^24)`, rounded to nearest
with exact tie detection through the remainder. -/
def f32div (a b : F32) : F32 :=
  if a.mant = 0 ∨ b.mant = 0 then ⟨0, 0⟩
  else
    let A := a.mant.natAbs
    let B := b.mant.natAbs
    let sgn := sgnOf a.mant * sgnOf b.mant
    let eadj : ℤ := if B ≤ A then 23 else 24
    let n := if B ≤ A then A * 2 ^ 23 else A * 2 ^ 24
    let q := n / B
    let r := n % B
    let q2 := if 2 * r < B then q else if B < 2 * r then q + 1
      else if q % 2 = 0 then q else q + 1
    if q2 = 2 ^ 24 then ⟨sgn * 2 ^ 23, a.exp - b.exp - eadj + 1⟩
    else ⟨sgn * (q2 : ℤ), a.exp - b.exp - eadj⟩

def f32toRat (x : F32) : ℚ :=
  (x.mant : ℚ) * (2 : ℚ) ^ x.exp

/-- `map_to_range` from src/utils.rs with its `f32` arithmetic modelled
faithfully: every cast and every operation of the source rounds to
nearest (ties to even), exactly as binary32 does. -/
def map_to_range_f32 (min max target : Nat) : ℚ :=
  let capped_target := Nat.min target 100
  let range := f32sub (f32ofNat max) (f32ofNat min)
  let percentage := f32div (f32ofNat capped_target) (f32ofNat 100)
  f32toRat (f32add (f32ofNat min) (f32mul range percentage))

/-- C9 (counterexample to the claim as stated): at
`(min, max, target) = (3, 16777222, 100)` the exact value of the formula
is `max` itself, but the f32 computation returns `16777224.0`, strictly
greater than `(f32)max = 16777222.0` — the subtraction rounds
`16777219` up to `16777220` and the final addition rounds `16777223` up
to `16777224` (both ties to even).  So the returned value does not always
lie in `[(f32)min, (f32)max]`. -/
theorem map_to_range_f32_exceeds_max :
    map_to_range_f32 3 16777222 100 = 16777224 ∧
    f32toRat (f32ofNat 16777222) = 16777222 ∧
    map_to_range 3 16777222 100 = 16777222 ∧
    ¬ map_to_range_f32 3 16777222 100 ≤ f32toRat (f32ofNat 16777222) := by
  have hres : f32add (f32ofNat 3)
      (f32mul (f32sub (f32ofNat 16777222) (f32ofNat 3))
        (f32div (f32ofNat (Nat.min 100 100)) (f32ofNat 100))) = ⟨8388612, 1⟩ := by
    decide
  have hmax : f32ofNat 16777222 = ⟨8388611, 1⟩ := by decide
  have h1 : map_to_range_f32 3 16777222 100 = 16777224 := by
    show f32toRat (f32add (f32ofNat 3)
      (f32mul (f32sub (f32ofNat 16777222) (f32ofNat 3))
        (f32div (f32ofNat (Nat.min 100 100)) (f32ofNat 100)))) = 16777224
    rw [hres]
    norm_num [f32toRat]
  have h2 : f32toRat (f32ofNat 16777222) = 16777222 := by
    rw [hmax]
    norm_num [f32toRat]
  refine ⟨h1, h2, by norm_num [map_to_range], ?_⟩
  rw [h1, h2]
  norm_num

/-- Model of Rust's `str::replace` on character lists: replaces every
non-overlapping occurrence of `p` by `r`, scanning left to right.  (The
source only ever calls it with a non-empty pattern; for `p = []` this model
is the identity.) -/
def listReplace (p r : List Char) : List Char → List Char
  | [] => []
  | c :: cs =>
    if h : p ≠ [] ∧ p.isPrefixOf (c :: cs) then
      r ++ listReplace p r ((c :: cs).drop p.length)
    else
      c :: listReplace p r cs
termination_by s => s.length
decreasing_by
  · simp only [List.length_drop, List.length_cons]
    have := List.length_pos.mpr h.1
    omega
  · simp

/-- `remove_json_wrapper` from src/utils.rs: deletes every occurrence of
`"json\n"`, then every occurrence of the triple-backtick fence. -/
def remove_json_wrapper (json_response : List Char) : List Char :=
  let text_no_json := listReplace "json\n".toList [] json_response
  listReplace "```".toList [] text_no_json

/-- Specification-side description of "delete every occurrence of `p`,
left to right", written with an accumulator. -/
def removeAllAux (p acc : List Char) : List Char → List Char
  | [] => acc.reverse
  | c :: cs =>
    if h : p ≠ [] ∧ p.isPrefixOf (c :: cs) then
      removeAllAux p acc ((c :: cs).drop p.length)
    else
      removeAllAux p (c :: acc) cs
termination_by s => s.length
decreasing_by
  · simp only [List.length_drop, List.length_cons]
    have := List.length_pos.mpr h.1
    omega
  · simp

/-- The input with every occurrence of `p` deleted, left to right. -/
def removeAllOcc (p s : List Char) : List Char :=
  removeAllAux p [] s

/-- If `p` does not occur as a contiguous substring of `s`, replacement
leaves `s` unchanged. -/
theorem listReplace_no_occurrence (p r : List Char) :
    ∀ s : List Char, ¬ (p <:+: s) → listReplace p r s = s := by
  intro s
  induction s with
  | nil => intro _; simp [listReplace]
  | cons c cs ih =>
    intro hnot
    rw [listReplace]
    rw [dif_neg]
    · have : ¬ (p <:+: cs) := fun hi => hnot (hi.trans (List.suffix_cons c cs).isInfix)
      rw [ih this]
    · rintro ⟨-, hpre⟩
      exact hnot (List.IsPrefix.isInfix (List.isPrefixOf_iff_prefix.mp hpre))

/-- The accumulator-based deletion agrees with `listReplace` at the empty
replacement string. -/
theorem removeAllAux_eq (p : List Char) :
    ∀ (n : Nat) (s acc : List Char), s.length ≤ n →
      removeAllAux p acc s = acc.reverse ++ listReplace p [] s := by
  intro n
  induction n with
  | zero =>
    intro s acc h
    cases s with
    | nil => simp [removeAllAux, listReplace]
    | cons c cs => simp at h
  | succ n ih =>
    intro s acc h
    cases s with
    | nil => simp [removeAllAux, listReplace]
    | cons c cs =>
      by_cases hc : p ≠ [] ∧ p.isPrefixOf (c :: cs)
      · rw [removeAllAux, dif_pos hc, listReplace, dif_pos hc]
        have hlen : ((c :: cs).drop p.length).length ≤ n := by
          simp only [List.length_drop, List.length_cons]
          have := List.length_pos.mpr hc.1
          simp only [List.length_cons] at h
          omega
        rw [ih _ acc hlen]
        simp
      · rw [removeAllAux, dif_neg hc, listReplace, dif_neg hc]
        have hlen : cs.length ≤ n := by
          simp only [List.length_cons] at h
          omega
        rw [ih cs (c :: acc) hlen]
        simp

/-- C8: an input containing neither `"json\n"` nor a triple-backtick fence
is returned unchanged by `remove_json_wrapper`; in general, the output is
the input with every occurrence of `"json\n"` deleted and then every
occurrence of the fence deleted, wherever they occur. -/
theorem remove_json_wrapper_spec :
    (∀ s : List Char, ¬ ("json\n".toList <:+: s) → ¬ ("```".toList <:+: s) →
      remove_json_wrapper s = s) ∧
    (∀ s : List Char, remove_json_wrapper s =
      removeAllOcc "```".toList (removeAllOcc "json\n".toList s)) := by
  constructor
  · intro s h1 h2
    unfold remove_json_wrapper
    rw [listReplace_no_occurrence _ _ s h1, listReplace_no_occurrence _ _ s h2]
  · intro s
    unfold remove_json_wrapper removeAllOcc
    rw [removeAllAux_eq _ s.length s [] (le_refl _)]
    simp only [List.reverse_nil, List.nil_append]
    rw [removeAllAux_eq _ (listReplace "json\n".toList [] s).length _ [] (le_refl _)]
    simp

/-- Witness for C8: a fence-free input passes through unchanged. -/
theorem remove_json_wrapper_spec_witness :
    remove_json_wrapper "hello world".toList = "hello world".toList :=
  remove_json_wrapper_spec.1 _ (by decide) (by decide)

/-- The JSON Schema instance types used by the schemars data model. -/
inductive InstanceType where
  | null
  | boolean
  | object
  | array
  | number
  | string
  | integer

/- The fragment of the schemars 0.8 data model used by src/utils.rs:
`Schema` is either a boolean ("accept anything" / "reject everything")
or a schema object; a schema object carries the metadata title, the
`type` field, a `$ref` and the object validation (required set and
properties map, both kept in ascending key order as in `BTreeMap`). -/
mutual
inductive Schema where
  | bool (b : Bool)
  | obj (o : SchemaObject)
inductive SchemaObject where
  | mk (title : Option String) (instance_type : Option (List InstanceType))
      (reference : Option String) (object : Option ObjectValidation)
inductive ObjectValidation where
  | mk (required : List String) (properties : PropMap)
inductive PropMap where
  | nil
  | cons (name : String) (s : Schema) (rest : PropMap)
end

/-- The `definitions` map of a root schema (ascending key order). -/
inductive DefMap where
  | nil
  | cons (name : String) (s : Schema) (rest : DefMap)

/-- schemars `RootSchema`: the `$schema` reference, the root schema object
and the definitions map. -/
structure RootSchema where
  meta_schema : Option String
  schema : SchemaObject
  definitions : DefMap

def SchemaObject.titleOf : SchemaObject → Option String
  | .mk t _ _ _ => t

def SchemaObject.instTypeOf : SchemaObject → Option (List InstanceType)
  | .mk _ it _ _ => it

def SchemaObject.refOf : SchemaObject → Option String
  | .mk _ _ rf _ => rf

def SchemaObject.objOf : SchemaObject → Option ObjectValidation
  | .mk _ _ _ ov => ov

/-- The replacement src/utils.rs applies to each top-level property: the
`Bool(true)` placeholder becomes a schema object of instance type
`object`; every other schema is left as is. -/
def fix_prop : Schema → Schema
  | .bool true => .obj (.mk none (some [InstanceType.object]) none none)
  | s => s

def mapProps (f : Schema → Schema) : PropMap → PropMap
  | .nil => .nil
  | .cons n s rest => .cons n (f s) (mapProps f rest)

/-- `fix_value_schema` from src/utils.rs: if the root schema object has an
object validation, rewrite each of its properties with `fix_prop`;
otherwise leave the schema untouched. -/
def fix_value_schema (r : RootSchema) : RootSchema :=
  match r with
  | ⟨ms, SchemaObject.mk t it rf ov, defs⟩ =>
    match ov with
    | none => ⟨ms, SchemaObject.mk t it rf none, defs⟩
    | some (ObjectValidation.mk req props) =>
      ⟨ms, SchemaObject.mk t it rf (some (ObjectValidation.mk req (mapProps fix_prop props))), defs⟩

/-- C10: `fix_value_schema` touches only top-level properties that are
exactly the boolean-true placeholder: the `$schema` reference, the
definitions and all other root schema-object components are preserved, a
schema without object validation or with an empty properties map is
returned unchanged, the properties are rewritten pointwise by `fix_prop`,
and `fix_prop` changes only the boolean-true placeholder. -/
theorem fix_value_schema_frame (r : RootSchema) :
    (fix_value_schema r).meta_schema = r.meta_schema ∧
    (fix_value_schema r).definitions = r.definitions ∧
    (fix_value_schema r).schema.titleOf = r.schema.titleOf ∧
    (fix_value_schema r).schema.instTypeOf = r.schema.instTypeOf ∧
    (fix_value_schema r).schema.refOf = r.schema.refOf ∧
    (r.schema.objOf = none → fix_value_schema r = r) ∧
    (∀ req, r.schema.objOf = some (.mk req .nil) → fix_value_schema r = r) ∧
    (∀ req props, r.schema.objOf = some (.mk req props) →
      (fix_value_schema r).schema.objOf = some (.mk req (mapProps fix_prop props))) ∧
    fix_prop (Schema.bool true) = Schema.obj (.mk none (some [InstanceType.object]) none none) ∧
    fix_prop (Schema.bool false) = Schema.bool false ∧
    (∀ o : SchemaObject, fix_prop (Schema.obj o) = Schema.obj o) := by
  obtain ⟨ms, so, defs⟩ := r
  cases so with
  | mk t it rf ov =>
    cases ov with
    | none =>
      refine ⟨rfl, rfl, rfl, rfl, rfl, fun _ => rfl, ?_, ?_, rfl, rfl, fun o => rfl⟩
      · intro req h
        simp [SchemaObject.objOf] at h
      · intro req props h
        simp [SchemaObject.objOf] at h
    | some v =>
      cases v with
      | mk req props =>
        refine ⟨rfl, rfl, rfl, rfl, rfl, ?_, ?_, ?_, rfl, rfl, fun o => rfl⟩
        · intro h
          simp [SchemaObject.objOf] at h
        · intro req2 h
          simp only [SchemaObject.objOf, Option.some.injEq, ObjectValidation.mk.injEq] at h
          obtain ⟨h1, h2⟩ := h
          subst h1; subst h2
          simp [fix_value_schema, mapProps]
        · intro req2 props2 h
          simp only [SchemaObject.objOf, Option.some.injEq, ObjectValidation.mk.injEq] at h
          obtain ⟨h1, h2⟩ := h
          subst h1; subst h2
          simp [fix_value_schema, SchemaObject.objOf]

/-- Witness for C10: a schema with no object validation is unchanged. -/
theorem fix_value_schema_frame_witness :
    fix_value_schema ⟨none, .mk none none none none, .nil⟩ =
      ⟨none, .mk none none none none, .nil⟩ :=
  (fix_value_schema_frame _).2.2.2.2.2.1 rfl

/- Model of `serde_json::Value`.  Object fields are kept in ascending key
order (serde_json's default map is a `BTreeMap`); the number model is
restricted to integers, and no number is ever produced by this pipeline. -/
mutual
inductive Json where
  | null
  | bool (b : Bool)
  | num (n : Int)
  | str (s : String)
  | arr (elems : JsonList)
  | obj (fields : JsonFields)
inductive JsonList where
  | nil
  | cons (v : Json) (rest : JsonList)
inductive JsonFields where
  | nil
  | cons (name : String) (v : Json) (rest : JsonFields)
end

def fieldsOfList : List (String × Json) → JsonFields
  | [] => .nil
  | (k, v) :: rest => .cons k v (fieldsOfList rest)

def listOfJsons : List Json → JsonList
  | [] => .nil
  | v :: rest => .cons v (listOfJsons rest)

def jobj (l : List (String × Json)) : Json :=
  Json.obj (fieldsOfList l)

def jarr (l : List Json) : Json :=
  Json.arr (listOfJsons l)

def lookupField (k : String) : JsonFields → Option Json
  | .nil => none
  | .cons n v rest => if n = k then some v else lookupField k rest

/-- `BTreeMap::remove` on a serialized JSON object. -/
def removeField (k : String) : JsonFields → JsonFields
  | .nil => .nil
  | .cons n v rest => if n = k then removeField k rest else .cons n v (removeField k rest)

def jsonLookup (k : String) : Json → Option Json
  | .obj fields => lookupField k fields
  | _ => none

def jsonIsObj : Json → Bool
  | .obj _ => true
  | _ => false

/-- The post-serialization step of `get_type_schema` (src/utils.rs lines
57-60): if the serialized schema is a JSON object, remove its top-level
`$schema` and `title` keys. -/
def strip_root_meta : Json → Json
  | .obj fields => .obj (removeField "title" (removeField "$schema" fields))
  | v => v

def instanceTypeStr : InstanceType → String
  | .null => "null"
  | .boolean => "boolean"
  | .object => "object"
  | .array => "array"
  | .number => "number"
  | .string => "string"
  | .integer => "integer"

/-- schemars `SingleOrVec<InstanceType>` serialization: a single type is a
string, several are an array. -/
def instanceTypeJson : List InstanceType → Json
  | [t] => Json.str (instanceTypeStr t)
  | ts => jarr (ts.map (fun t => Json.str (instanceTypeStr t)))

def refFieldsOf : Option String → List (String × Json)
  | none => []
  | some x => [("$ref", Json.str x)]

def titleFieldsOf : Option String → List (String × Json)
  | none => []
  | some x => [("title", Json.str x)]

def typeFieldsOf : Option (List InstanceType) → List (String × Json)
  | none => []
  | some ts => [("type", instanceTypeJson ts)]

def PropMap.isNil : PropMap → Bool
  | .nil => true
  | _ => false

def DefMap.isNil : DefMap → Bool
  | .nil => true
  | _ => false

/- Serialization of schemars `Schema` values to `serde_json::Value`:
optional components are skipped when absent, empty `required` and
`properties` are skipped, and the emitted keys are in ascending order
exactly as serde_json's `BTreeMap`-backed objects produce them. -/
mutual
def schemaToJson : Schema → Json
  | .bool b => Json.bool b
  | .obj (.mk t it rf ov) =>
    jobj (refFieldsOf rf ++ ovFields ov ++ titleFieldsOf t ++ typeFieldsOf it)
def ovFields : Option ObjectValidation → List (String × Json)
  | none => []
  | some (.mk req props) =>
    (if props.isNil then [] else [("properties", jobj (propMapToJson props))]) ++
    (if req.isEmpty then [] else [("required", jarr (req.map Json.str))])
def propMapToJson : PropMap → List (String × Json)
  | .nil => []
  | .cons n s rest => (n, schemaToJson s) :: propMapToJson rest
end

def defMapToJson : DefMap → List (String × Json)
  | .nil => []
  | .cons n s rest => (n, schemaToJson s) :: defMapToJson rest

/-- Serialization of a schemars `RootSchema` to a `serde_json::Value`
(`serde_json::to_value` in src/utils.rs line 54): the root schema object's
fields flattened together with `$schema` and `definitions`, keys ascending. -/
def rootSchemaToJson (r : RootSchema) : Json :=
  match r with
  | ⟨ms, SchemaObject.mk t it rf ov, defs⟩ =>
    jobj (refFieldsOf rf ++
      (match ms with | none => [] | some m => [("$schema", Json.str m)]) ++
      (if defs.isNil then [] else [("definitions", jobj (defMapToJson defs))]) ++
      ovFields ov ++ titleFieldsOf t ++ typeFieldsOf it)

/-- Indentation emitted by serde_json's `PrettyFormatter`: two spaces per
nesting level. -/
def indentChars (n : Nat) : List Char :=
  List.replicate (2 * n) ' '

def hexDigit (n : Nat) : Char :=
  if n < 10 then Char.ofNat (48 + n) else Char.ofNat (87 + n)

/-- serde_json string escaping: quote, backslash and control characters
are escaped, everything else is emitted verbatim. -/
def escapeChar (c : Char) : List Char :=
  if c = '"' then ['\\', '"']
  else if c = '\\' then ['\\', '\\']
  else if c = '\x08' then ['\\', 'b']
  else if c = '\t' then ['\\', 't']
  else if c = '\n' then ['\\', 'n']
  else if c = '\x0c' then ['\\', 'f']
  else if c = '\r' then ['\\', 'r']
  else if c.toNat < 32 then
    ['\\', 'u', '0', '0', hexDigit (c.toNat / 16), hexDigit (c.toNat % 16)]
  else [c]

def escapeString (s : String) : List Char :=
  s.toList.foldr (fun c acc => escapeChar c ++ acc) []

def quoteString (s : String) : List Char :=
  '"' :: (escapeString s ++ ['"'])

/- Model of `serde_json::to_string_pretty`: entries one per line, comma
separated, keys followed by a colon and one space, two-space indentation,
empty containers printed inline, and no trailing newline after the root
value. -/
mutual
def prettyChars : Nat → Json → List Char
  | _, .null => "null".toList
  | _, .bool b => (cond b "true" "false").toList
  | _, .num n => (toString n).toList
  | _, .str s => quoteString s
  | _, .arr .nil => ['[', ']']
  | d, .arr (.cons v rest) =>
    '[' :: '\n' :: (prettyElems (d + 1) (.cons v rest) ++ ('\n' :: (indentChars d ++ [']'])))
  | _, .obj .nil => ['{', '}']
  | d, .obj (.cons k v rest) =>
    '{' :: '\n' :: (prettyFields (d + 1) (.cons k v rest) ++ ('\n' :: (indentChars d ++ ['}'])))
def prettyElems : Nat → JsonList → List Char
  | _, .nil => []
  | d, .cons v .nil => indentChars d ++ prettyChars d v
  | d, .cons v (.cons w rest) =>
    (indentChars d ++ prettyChars d v) ++ (',' :: '\n' :: prettyElems d (.cons w rest))
def prettyFields : Nat → JsonFields → List Char
  | _, .nil => []
  | d, .cons k v .nil => indentChars d ++ (quoteString k ++ (':' :: ' ' :: prettyChars d v))
  | d, .cons k v (.cons k2 v2 rest) =>
    (indentChars d ++ (quoteString k ++ (':' :: ' ' :: prettyChars d v))) ++
      (',' :: '\n' :: prettyFields d (.cons k2 v2 rest))
end

/-- `serde_json::to_string_pretty` at the root (indentation level 0). -/
def to_string_pretty (v : Json) : String :=
  String.mk (prettyChars 0 v)

/-- Pretty-printing a JSON object always ends with a closing brace. -/
theorem prettyChars_obj_getLast (fs : JsonFields) :
    (prettyChars 0 (Json.obj fs)).getLast? = some '}' := by
  cases fs with
  | nil => rfl
  | cons k v rest =>
    show ('{' :: '\n' ::
      (prettyFields 1 (.cons k v rest) ++ ('\n' :: (indentChars 0 ++ ['}'])))).getLast? = some '}'
    have h : ('{' :: '\n' ::
        (prettyFields 1 (JsonFields.cons k v rest) ++ ('\n' :: (indentChars 0 ++ ['}'])))) =
        ('{' :: '\n' :: (prettyFields 1 (JsonFields.cons k v rest) ++ ('\n' :: indentChars 0)))
          ++ ['}'] := by
      simp
    rw [h, List.getLast?_concat]

/-- Primitive field kinds of a result shape. -/
inductive Prim where
  | string
  | integer
  | number
  | boolean

def primType : Prim → InstanceType
  | .string => .string
  | .integer => .integer
  | .number => .number
  | .boolean => .boolean

/- Modelled from the spec: the TypeDescriptor of §3/§9 — a structural
description of a result shape.  A field is a primitive, an opaque-value
field (`serde_json::Value`), an optional field, or a nested named shape;
a named shape has a name and a field list. -/
mutual
inductive FieldTy where
  | prim (p : Prim)
  | anyVal
  | option (inner : FieldTy)
  | nested (d : StructDesc)
inductive StructDesc where
  | mk (name : String) (fields : FieldList)
inductive FieldList where
  | nil
  | cons (fname : String) (ty : FieldTy) (rest : FieldList)
end

def structName : StructDesc → String
  | .mk n _ => n

def isRequiredTy : FieldTy → Bool
  | .option _ => false
  | _ => true

/-- Modelled from the spec: the schema schemars generates for one field —
a primitive type constraint for primitives, the boolean "accept anything"
placeholder for an opaque-value field, and a `$ref` into `definitions`
for a nested named shape.  An optional field keeps its inner schema and
is only dropped from `required`. -/
def fieldSchema : FieldTy → Schema
  | .prim p => .obj (.mk none (some [primType p]) none none)
  | .anyVal => .bool true
  | .option t => fieldSchema t
  | .nested d => .obj (.mk none none (some ("#/definitions/" ++ structName d)) none)

/-- Lexicographic order on characters, by Unicode scalar value; on strings
this coincides with the UTF-8 byte order that Rust's `BTreeMap<String, _>`
sorts by. -/
def charListLt : List Char → List Char → Bool
  | [], [] => false
  | [], _ :: _ => true
  | _ :: _, [] => false
  | c :: cs, d :: ds =>
    if c.toNat < d.toNat then true
    else if d.toNat < c.toNat then false
    else charListLt cs ds

def strLt (a b : String) : Bool :=
  charListLt a.toList b.toList

def insertSortedStr (s : String) : List String → List String
  | [] => [s]
  | x :: xs => if strLt s x then s :: x :: xs else if s = x then x :: xs else x :: insertSortedStr s xs

/-- The `required` set of a field list (`BTreeSet`: ascending, no dups). -/
def requiredOf : FieldList → List String
  | .nil => []
  | .cons n t rest => if isRequiredTy t then insertSortedStr n (requiredOf rest) else requiredOf rest

def insertProp (n : String) (s : Schema) : PropMap → PropMap
  | .nil => .cons n s .nil
  | .cons m t rest =>
    if strLt n m then .cons n s (.cons m t rest)
    else if n = m then .cons n s rest
    else .cons m t (insertProp n s rest)

/-- The `properties` map of a field list (`BTreeMap`: ascending keys). -/
def propsOf : FieldList → PropMap
  | .nil => .nil
  | .cons n t rest => insertProp n (fieldSchema t) (propsOf rest)

/-- The schema object generated for a named shape. -/
def structObjectOf : StructDesc → SchemaObject
  | .mk _ fs => .mk none (some [InstanceType.object]) none (some (.mk (requiredOf fs) (propsOf fs)))

def insertDef (n : String) (s : Schema) : DefMap → DefMap
  | .nil => .cons n s .nil
  | .cons m t rest =>
    if strLt n m then .cons n s (.cons m t rest)
    else if n = m then .cons n s rest
    else .cons m t (insertDef n s rest)

def mergeDefs : DefMap → DefMap → DefMap
  | .nil, d => d
  | .cons n s rest, d => mergeDefs rest (insertDef n s d)

/- Modelled from the spec: every nested named shape occurring anywhere
below a descriptor is emitted once into the `definitions` map. -/
mutual
def defsOfField : FieldTy → DefMap
  | .prim _ => .nil
  | .anyVal => .nil
  | .option t => defsOfField t
  | .nested d => insertDef (structName d) (Schema.obj (structObjectOf d)) (defsOfStruct d)
def defsOfStruct : StructDesc → DefMap
  | .mk _ fs => defsOfFields fs
def defsOfFields : FieldList → DefMap
  | .nil => .nil
  | .cons _ t rest => mergeDefs (defsOfField t) (defsOfFields rest)
end

/-- Modelled from the spec: `schema_for!` — the root schema of a
descriptor, with the draft-07 `$schema` reference and the shape's name as
`title`, plus the collected `definitions`. -/
def genSchema (d : StructDesc) : RootSchema :=
  match d with
  | .mk n fs =>
    ⟨some "http://json-schema.org/draft-07/schema#",
     .mk (some n) (some [InstanceType.object]) none (some (.mk (requiredOf fs) (propsOf fs))),
     defsOfStruct d⟩

/-- Error taxonomy of the schema deriver (spec §7); no error path is
reachable in this model. -/
inductive SchemaError where
  | derivation
  | serialization

/-- The JSON value whose pretty-printing `get_type_schema` returns. -/
def schema_json_value (d : StructDesc) : Json :=
  strip_root_meta (rootSchemaToJson (fix_value_schema (genSchema d)))

/-- `get_type_schema` from src/utils.rs (the spec's `derive_schema`):
generate the schema, fix the opaque-value placeholders, serialize, strip
the top-level `$schema` and `title` keys, pretty-print. -/
def get_type_schema (d : StructDesc) : Except SchemaError String :=
  let schema := genSchema d
  let schema := fix_value_schema schema
  let schema_json := rootSchemaToJson schema
  let schema_json := strip_root_meta schema_json
  Except.ok (to_string_pretty schema_json)

theorem lookupField_removeField_self (k : String) :
    ∀ fs : JsonFields, lookupField k (removeField k fs) = none
  | .nil => by simp [removeField, lookupField]
  | .cons n v rest => by
    by_cases h : n = k <;>
      simp [removeField, lookupField, h, lookupField_removeField_self k rest]

theorem lookupField_removeField_ne (k j : String) (hkj : k ≠ j) :
    ∀ fs : JsonFields, lookupField k (removeField j fs) = lookupField k fs
  | .nil => by simp [removeField]
  | .cons n v rest => by
    have ih := lookupField_removeField_ne k j hkj rest
    by_cases h1 : n = j <;> by_cases h2 : n = k <;>
      simp_all [removeField, lookupField]

theorem rootSchemaToJson_isObj (r : RootSchema) :
    ∃ fs, rootSchemaToJson r = Json.obj fs := by
  obtain ⟨ms, so, defs⟩ := r
  cases so with
  | mk t it rf ov => exact ⟨_, rfl⟩

/-- C3: `get_type_schema` returns the pretty-printing of a JSON value that
is an object with no top-level `$schema` and no top-level `title` key. -/
theorem get_type_schema_no_root_meta (d : StructDesc) :
    get_type_schema d = Except.ok (to_string_pretty (schema_json_value d)) ∧
    jsonIsObj (schema_json_value d) = true ∧
    jsonLookup "$schema" (schema_json_value d) = none ∧
    jsonLookup "title" (schema_json_value d) = none := by
  obtain ⟨fs, hfs⟩ := rootSchemaToJson_isObj (fix_value_schema (genSchema d))
  have hv : schema_json_value d =
      Json.obj (removeField "title" (removeField "$schema" fs)) := by
    unfold schema_json_value
    rw [hfs]
    rfl
  refine ⟨rfl, ?_, ?_, ?_⟩
  · rw [hv]
    rfl
  · rw [hv]
    simp only [jsonLookup]
    rw [lookupField_removeField_ne "$schema" "title" (by decide),
      lookupField_removeField_self]
  · rw [hv]
    simp only [jsonLookup]
    rw [lookupField_removeField_self]

/-- C7 (amended): `get_type_schema` returns the serde_json
pretty-printing (two-space indentation, no trailing newline) of its schema
value; the returned string ends with a closing brace, not with a newline
character. -/
theorem get_type_schema_pretty_format (d : StructDesc) :
    get_type_schema d = Except.ok (to_string_pretty (schema_json_value d)) ∧
    (to_string_pretty (schema_json_value d)).data.getLast? = some '}' ∧
    (to_string_pretty (schema_json_value d)).data.getLast? ≠ some '\n' := by
  obtain ⟨fs, hfs⟩ := rootSchemaToJson_isObj (fix_value_schema (genSchema d))
  have hv : schema_json_value d =
      Json.obj (removeField "title" (removeField "$schema" fs)) := by
    unfold schema_json_value
    rw [hfs]
    rfl
  have hlast : (to_string_pretty (schema_json_value d)).data.getLast? = some '}' := by
    have hdata : (to_string_pretty (schema_json_value d)).data
        = prettyChars 0 (schema_json_value d) := rfl
    rw [hdata, hv, prettyChars_obj_getLast]
  exact ⟨rfl, hlast, by rw [hlast]; decide⟩

/-- The `SimpleStruct { id: i32, name: String }` descriptor of the
repository's test suite. -/
def simpleDesc : StructDesc :=
  .mk "SimpleStruct" (.cons "id" (.prim .integer) (.cons "name" (.prim .string) .nil))

/-- The `StructWithValue { data: serde_json::Value }` descriptor of the
repository's test suite. -/
def valueDesc : StructDesc :=
  .mk "StructWithValue" (.cons "data" .anyVal .nil)

/-- A named shape with an opaque-value field, used nested. -/
def innerDesc : StructDesc :=
  .mk "Inner" (.cons "data" .anyVal .nil)

/-- A descriptor that nests `innerDesc`, so `Inner` lands in
`definitions` with its opaque-value placeholder. -/
def outerDesc : StructDesc :=
  .mk "Outer" (.cons "inner" (.nested innerDesc) .nil)

/-- C7 (counterexample to the claim as stated): at the `SimpleStruct`
descriptor the string returned by `get_type_schema` has a closing brace as
its last character, so it is not newline-terminated. -/
theorem get_type_schema_not_newline_terminated :
    (get_type_schema simpleDesc).map (fun s => s.data.getLast?) = Except.ok (some '}') ∧
    (some '}' : Option Char) ≠ some '\n' :=
  ⟨rfl, by decide⟩

/-- C1 (evaluation at the failing input): the top-level opaque-value
property of `StructWithValue` is rewritten to an explicit `type: object`
node, but in the schema derived for `Outer` the boolean "accept anything"
placeholder survives at `definitions.Inner.properties.data` — the fix-up
does not reach properties inside nested definitions. -/
theorem get_type_schema_nested_placeholder_survives :
    get_type_schema outerDesc = Except.ok (to_string_pretty (schema_json_value outerDesc)) ∧
    ((jsonLookup "properties" (schema_json_value valueDesc)).bind (jsonLookup "data")
      = some (jobj [("type", Json.str "object")])) ∧
    ((((jsonLookup "definitions" (schema_json_value outerDesc)).bind (jsonLookup "Inner")).bind
        (jsonLookup "properties")).bind (jsonLookup "data") = some (Json.bool true)) :=
  ⟨rfl, rfl, rfl⟩

end Allms
